import Mathlib

/-!
Verification development for the snipzy-tacklet code-editor widget.

The embedded program is `src/src/components/CodeEditor.vue` (script part),
together with the host `src/src/App.vue`.  Text is modelled as `List Char`
(`Text` below); JS `string.substring(0, n)` is `List.take n`,
`string.substring(n)` is `List.drop n`, and `string.split("\n")` is
`splitNL`.  The external highlight.js library is a black box
(`Highlighter` below): a function from text and language name to marked-up
text that may also throw (`Except.error`).
-/

set_option autoImplicit false

namespace Snipzy

abbrev Text := List Char

/-- The double-quote character (written via its code point to keep the
source free of tricky literals). -/
def quoteChar : Char := Char.ofNat 34

/-- The apostrophe character. -/
def aposChar : Char := Char.ofNat 39

/-- CodeEditor.vue lines 60-71: the fixed list shown in the language
drop-down menu. -/
def languages : List String :=
  ["javascript", "typescript", "html", "css", "python", "java", "cpp",
   "ruby", "php", "sql"]

/-- CodeEditor.vue lines 41-44: the getter of the `localLanguage` computed
property, `props.language || "javascript"`.  In JS both `undefined` and the
empty string are falsy, so those two cases (and only those) yield the
default `"javascript"`. -/
def localLanguage_get (language : Option String) : String :=
  match language with
  | none => "javascript"
  | some s => if s = "" then "javascript" else s

/-- The reactive state of the mounted CodeEditor component: the `code` ref
(kept in sync with the textarea value by `v-model`), the `innerHTML` of the
highlight `pre` element (line 104), the textarea selection, the displayed
cursor coordinates (lines 74-75), and the display flags / language props
held by the host App.vue. -/
structure EditorState where
  code : Text
  innerHTML : Text
  selectionStart : Nat
  selectionEnd : Nat
  cursorLine : Nat
  cursorColumn : Nat
  darkMode : Bool
  wordWrap : Bool
  showLineNumbers : Bool
  language : Option String
deriving Repr, DecidableEq

/-- The external highlighting function (`hljs.highlight(text, {language}).value`),
spec section 6: text and language name to marked-up text, possibly throwing
(for example on an unregistered language). -/
abbrev Highlighter := Text → String → Except String Text

/-- CodeEditor.vue line 104: `highlighted.replace(/\n/g, "<br>")`. -/
def replaceBr : Text → Text
  | [] => []
  | c :: rest => (if c = '\n' then "<br>".data else [c]) ++ replaceBr rest

/-- CodeEditor.vue lines 97-106, `highlightCode`: call the external
highlighter on the current code with the active language, replace line
breaks by `<br>`, and write the result into the `pre` element's
`innerHTML`.  There is no `try`/`catch`: when the highlighter throws,
nothing has been written yet, so the state is returned unchanged together
with the propagated exception (`some e`). -/
def highlightCode (hljsHighlight : Highlighter) (s : EditorState) :
    EditorState × Option String :=
  match hljsHighlight s.code (localLanguage_get s.language) with
  | .error e => (s, some e)
  | .ok highlighted => ({ s with innerHTML := replaceBr highlighted }, none)

/-- JS `string.split("\n")`: splits at every line break; a trailing line
break yields a trailing empty piece, and the empty string yields `[""]`. -/
def splitNL : Text → List Text
  | [] => [[]]
  | c :: rest =>
    if c = '\n' then [] :: splitNL rest
    else
      match splitNL rest with
      | [] => [[c]]
      | l :: ls => (c :: l) :: ls

/-- CodeEditor.vue lines 116-129, `updateCursorPosition`: the pair
(cursorLine, cursorColumn) computed from the textarea value and
`selectionStart`: split the text before the cursor at line breaks; the line
is the number of pieces and the column is the length of the last piece plus
one. -/
def updateCursorPosition (value : Text) (selectionStart : Nat) : Nat × Nat :=
  let textBeforeCursor := value.take selectionStart
  let lines := splitNL textBeforeCursor
  (lines.length, (lines.getLastD []).length + 1)

/-- CodeEditor.vue lines 116-129 as a state transformer: writes the two
cursor refs, touching nothing else. -/
def updateCursorPositionRun (s : EditorState) : EditorState :=
  let p := updateCursorPosition s.code s.selectionStart
  { s with cursorLine := p.1, cursorColumn := p.2 }

/-- CodeEditor.vue lines 88-95, `updateContent`: re-read the textarea value
into `code` (already identical in this model, since `v-model` keeps them in
sync), emit the update, then `highlightCode` and `updateCursorPosition`.
An exception thrown by the highlighter aborts before the cursor update. -/
def updateContent (hljsHighlight : Highlighter) (s : EditorState) :
    EditorState × Option String :=
  match highlightCode hljsHighlight s with
  | (s1, some e) => (s1, some e)
  | (s1, none) => (updateCursorPositionRun s1, none)

/-- CodeEditor.vue lines 160-183, `handleKeyDown` on the Tab key: replace
the selected range `[selectionStart, selectionEnd)` of the textarea value
by two spaces, collapse the selection to `selectionStart + 2`, then run
`updateContent`. -/
def handleKeyDown (hljsHighlight : Highlighter) (s : EditorState) :
    EditorState × Option String :=
  let start := s.selectionStart
  let newValue := s.code.take start ++ "  ".data ++ s.code.drop s.selectionEnd
  let s1 := { s with
    code := newValue
    selectionStart := start + 2
    selectionEnd := start + 2 }
  updateContent hljsHighlight s1

/-- CodeEditor.vue lines 26-29 with App.vue's `v-model:darkMode`: the
setter emits `update:darkMode`, the host writes the new value back into the
prop.  Net effect on the combined state: the flag changes, nothing else. -/
def setDarkMode (s : EditorState) (v : Bool) : EditorState :=
  { s with darkMode := v }

/-- CodeEditor.vue lines 31-34 with App.vue's `v-model:wordWrap`. -/
def setWordWrap (s : EditorState) (v : Bool) : EditorState :=
  { s with wordWrap := v }

/-- Clicking the Dark Mode checkbox (line 287): `v-model` writes the
negated flag through the computed setter. -/
def toggleDarkMode (s : EditorState) : EditorState :=
  setDarkMode s (!s.darkMode)

/-- Clicking the Wrap Text checkbox (line 293). -/
def toggleWordWrap (s : EditorState) : EditorState :=
  setWordWrap s (!s.wordWrap)

/-- A finite word for "some sequence of clicks on the two display-flag
checkboxes". -/
inductive DisplayToggle
  | dark
  | wrap
deriving Repr, DecidableEq

/-- Run a sequence of display-flag toggles. -/
def applyToggles : List DisplayToggle → EditorState → EditorState
  | [], s => s
  | .dark :: ops, s => applyToggles ops (toggleDarkMode s)
  | .wrap :: ops, s => applyToggles ops (toggleWordWrap s)

/-- A styled span (spec glossary): a literal text fragment paired with an
optional style class. -/
structure Span where
  text : Text
  cls : Option Text
deriving Repr, DecidableEq

/-- Model of the external highlight.js HTML escaper applied to token text
(spec section 6: the highlighter returns literal text annotated with style
markers): the five HTML-special characters become entities, every other
character (line breaks included) stays literal. -/
def escapeHtml : Text → Text
  | [] => []
  | c :: rest =>
    (if c = '&' then "&amp;".data
     else if c = '<' then "&lt;".data
     else if c = '>' then "&gt;".data
     else if c = quoteChar then "&quot;".data
     else if c = aposChar then "&#x27;".data
     else [c]) ++ escapeHtml rest

/-- Model of how highlight.js serializes one token: an unstyled token is
just its escaped text, a styled one is wrapped in
`<span class="CLS">...</span>`. -/
def serializeSpan (sp : Span) : Text :=
  match sp.cls with
  | none => escapeHtml sp.text
  | some cl =>
      ("<span class=".data ++ [quoteChar]) ++ cl ++ [quoteChar, '>'] ++
        escapeHtml sp.text ++ "</span>".data

/-- Model of `hljs.highlight(...).value`: the concatenated serialization of
the token spans. -/
def serializeSpans (spans : List Span) : Text :=
  (spans.map serializeSpan).flatten

mutual

/-- The literal (text-node) characters of an innerHTML string: markup tags
contribute no characters.  Entities are decoded afterwards by
`decodeEntities`. -/
def stripTags : Text → Text
  | [] => []
  | c :: rest => if c = '<' then skipTag rest else c :: stripTags rest

/-- Skip to the closing `>` of the current tag. -/
def skipTag : Text → Text
  | [] => []
  | c :: rest => if c = '>' then stripTags rest else skipTag rest

end

/-- Decode the five HTML entities produced by `escapeHtml` back to their
characters; everything else is kept as is. -/
def decodeEntities : Text → Text
  | [] => []
  | c :: rest =>
    if c = '&' then
      match rest with
      | 'a' :: 'm' :: 'p' :: ';' :: r => '&' :: decodeEntities r
      | 'l' :: 't' :: ';' :: r => '<' :: decodeEntities r
      | 'g' :: 't' :: ';' :: r => '>' :: decodeEntities r
      | 'q' :: 'u' :: 'o' :: 't' :: ';' :: r => quoteChar :: decodeEntities r
      | '#' :: 'x' :: '2' :: '7' :: ';' :: r => aposChar :: decodeEntities r
      | r => c :: decodeEntities r
    else c :: decodeEntities rest

/-- The literal character content displayed by an innerHTML string:
text nodes only, entities decoded. -/
def literalText (html : Text) : Text :=
  decodeEntities (stripTags html)

/-- Modelled from the spec: `applyEdit` of the Buffer Model (section 4.1)
is absent from src/ (only its Tab-key instance exists, in `handleKeyDown`).
Per the spec it takes the current text and an edit descriptor - insert,
delete and full replace are all range replacements - and returns the text
with the range `[start, stop)` replaced by `repl`. -/
def applyEdit (text : Text) (start stop : Nat) (repl : Text) : Text :=
  text.take start ++ repl ++ text.drop stop

/-- Spec section 4.3: `line` is one plus the number of line breaks strictly
before the offset. -/
def specLine (text : Text) (o : Nat) : Nat :=
  1 + (text.take o).count '\n'

/-- One past the position of the last line break of `l`, or `0` when `l`
has none. -/
def lastBreakEnd : Text → Nat
  | [] => 0
  | c :: rest =>
    if '\n' ∈ rest then 1 + lastBreakEnd rest
    else if c = '\n' then 1 else 0

/-- Spec sections 3 and 4.3: the offset of the start of the line containing
offset `o`: zero on the first line, otherwise one past the last line break
strictly before `o`. -/
def lineStartOffset (text : Text) (o : Nat) : Nat :=
  lastBreakEnd (text.take o)

/-- Modelled from the spec: `lineColumnToOffset` of the Caret Tracker
(section 4.3) is absent from src/.  Walk the split lines; a line number
beyond the document is clamped to the last line, a column beyond the line
length is clamped to the end of that line (1-indexed line and column). -/
def lineColumnToOffsetAux : List Text → Nat → Nat → Nat
  | [], _, _ => 0
  | l :: ls, line, col =>
    if line ≤ 1 ∨ ls = [] then min (col - 1) l.length
    else l.length + 1 + lineColumnToOffsetAux ls (line - 1) col

/-- Modelled from the spec: `lineColumnToOffset(text, line, column)`
(section 4.3), the inverse mapping of the offset-to-(line, column)
conversion, with clamping. -/
def lineColumnToOffset (text : Text) (line col : Nat) : Nat :=
  lineColumnToOffsetAux (splitNL text) line col

/-- A concrete editor state used by witnesses and counterexamples. -/
def sampleState : EditorState where
  code := "ab\ncd".data
  innerHTML := []
  selectionStart := 1
  selectionEnd := 4
  cursorLine := 1
  cursorColumn := 2
  darkMode := false
  wordWrap := false
  showLineNumbers := true
  language := some "cobol"

/-- A highlighter that always throws, as `hljs.highlight` does on an
unregistered language. -/
def hlFail (msg : String) : Highlighter := fun _ _ => .error msg

/-! Helper lemmas about `splitNL`. -/

theorem splitNL_ne_nil (l : Text) : splitNL l ≠ [] := by
  induction l with
  | nil => simp [splitNL]
  | cons c rest ih =>
    cases h : splitNL rest with
    | nil => exact absurd h ih
    | cons a b => by_cases hc : c = '\n' <;> simp [splitNL, hc, h]

theorem splitNL_length (l : Text) : (splitNL l).length = l.count '\n' + 1 := by
  induction l with
  | nil => simp [splitNL]
  | cons c rest ih =>
    by_cases hc : c = '\n'
    · subst hc
      simp [splitNL, List.count_cons, ih]
    · cases h : splitNL rest with
      | nil => exact absurd h (splitNL_ne_nil rest)
      | cons a b =>
        rw [h] at ih
        simp at ih
        simp [splitNL, hc, h, List.count_cons]
        omega

theorem splitNL_of_not_mem {l : Text} (h : '\n' ∉ l) : splitNL l = [l] := by
  induction l with
  | nil => simp [splitNL]
  | cons c rest ih =>
    have hc : c ≠ '\n' := fun hc => h (hc ▸ List.mem_cons_self c rest)
    have hr : '\n' ∉ rest := fun hr => h (List.mem_cons_of_mem c hr)
    simp [splitNL, hc, ih hr]

theorem mem_of_splitNL_cons_ne {l : Text} {a : Text} {b : List Text}
    (h : splitNL l = a :: b) (hb : b ≠ []) : '\n' ∈ l := by
  by_contra hn
  rw [splitNL_of_not_mem hn] at h
  cases h
  exact hb rfl

theorem splitNL_tail_ne_nil {l : Text} {a : Text} {b : List Text}
    (h : splitNL l = a :: b) (hm : '\n' ∈ l) : b ≠ [] := by
  intro hb
  subst hb
  have h1 := splitNL_length l
  rw [h] at h1
  have h2 : l.count '\n' = 0 := by simpa using h1.symm
  rw [List.count_eq_zero] at h2
  exact h2 hm

theorem getLastD_irrel {xs : List Text} (h : xs ≠ []) (d d' : Text) :
    xs.getLastD d = xs.getLastD d' := by
  cases xs with
  | nil => exact absurd rfl h
  | cons a l => rw [List.getLastD_cons, List.getLastD_cons]

theorem lastBreakEnd_le (l : Text) : lastBreakEnd l ≤ l.length := by
  induction l with
  | nil => simp [lastBreakEnd]
  | cons c rest ih =>
    by_cases hm : '\n' ∈ rest
    · simp [lastBreakEnd, hm]
      omega
    · by_cases hc : c = '\n' <;> simp [lastBreakEnd, hm, hc]

theorem lastBreakEnd_eq_zero {l : Text} (h : '\n' ∉ l) : lastBreakEnd l = 0 := by
  induction l with
  | nil => simp [lastBreakEnd]
  | cons c rest ih =>
    have hc : c ≠ '\n' := fun hc => h (hc ▸ List.mem_cons_self c rest)
    have hr : '\n' ∉ rest := fun hr => h (List.mem_cons_of_mem c hr)
    simp [lastBreakEnd, hc, hr]

theorem splitNL_getLastD_length (l : Text) :
    ((splitNL l).getLastD []).length = l.length - lastBreakEnd l := by
  induction l with
  | nil => simp [splitNL, lastBreakEnd]
  | cons c rest ih =>
    have hle := lastBreakEnd_le rest
    by_cases hc : c = '\n'
    · subst hc
      have h1 : splitNL ('\n' :: rest) = [] :: splitNL rest := by simp [splitNL]
      rw [h1, List.getLastD_cons, ih]
      by_cases hm : '\n' ∈ rest
      · simp [lastBreakEnd, hm]
        omega
      · rw [lastBreakEnd_eq_zero hm]
        simp [lastBreakEnd, hm]
    · cases h : splitNL rest with
      | nil => exact absurd h (splitNL_ne_nil rest)
      | cons a b =>
        have h1 : splitNL (c :: rest) = (c :: a) :: b := by simp [splitNL, hc, h]
        cases hb : b with
        | nil =>
          subst hb
          have hm : '\n' ∉ rest := by
            intro hm
            exact splitNL_tail_ne_nil h hm rfl
          have ha : a = rest := by
            have := splitNL_of_not_mem hm
            rw [h] at this
            exact (List.cons.injEq _ _ _ _).mp this |>.1
          subst ha
          simp [h1, lastBreakEnd, hm, hc]
        | cons b0 bs =>
          subst hb
          have hm : '\n' ∈ rest := mem_of_splitNL_cons_ne h (by simp)
          rw [h1, List.getLastD_cons]
          rw [h, List.getLastD_cons] at ih
          rw [getLastD_irrel (by simp) (c :: a) a, ih]
          simp [lastBreakEnd, hm]
          omega

theorem splitNL_headD_length {l : Text} {o : Nat} (ho : o ≤ l.length)
    (hm : '\n' ∉ l.take o) : o ≤ ((splitNL l).headD []).length := by
  induction l generalizing o with
  | nil =>
    have h0 : o = 0 := Nat.le_zero.mp (by simpa using ho)
    subst h0
    simp [splitNL]
  | cons c rest ih =>
    cases o with
    | zero => simp
    | succ o' =>
      rw [List.take_succ_cons] at hm
      have hc : c ≠ '\n' := fun hc => hm (hc ▸ List.mem_cons_self _ _)
      have hr : '\n' ∉ rest.take o' := fun hr => hm (List.mem_cons_of_mem c hr)
      have ho' : o' ≤ rest.length := by simpa using ho
      cases h : splitNL rest with
      | nil => exact absurd h (splitNL_ne_nil rest)
      | cons a b =>
        have h1 : splitNL (c :: rest) = (c :: a) :: b := by simp [splitNL, hc, h]
        have h2 := ih ho' hr
        rw [h] at h2
        rw [h1]
        simp only [List.headD_cons, List.length_cons]
        simp only [List.headD_cons] at h2
        omega

/-- C4: for every text and every offset `o` with `0 ≤ o ≤ length text`, the
offset-to-(line, column) conversion of `updateCursorPosition` returns
line = 1 + the number of line breaks strictly before `o` and
column = `o` minus the offset of the start of that line, plus 1; in
particular offset 0 maps to (1, 1), and on "ab\ncd" offset 3 maps to
(2, 1) and offset 5 to (2, 3). -/
theorem C4_offset_to_line_column :
    (∀ (text : Text) (o : Nat), o ≤ text.length →
      updateCursorPosition text o =
        (specLine text o, o - lineStartOffset text o + 1)) ∧
    (∀ text : Text, updateCursorPosition text 0 = (1, 1)) ∧
    updateCursorPosition "ab\ncd".data 3 = (2, 1) ∧
    updateCursorPosition "ab\ncd".data 5 = (2, 3) := by
  refine ⟨?_, ?_, by decide, by decide⟩
  · intro text o ho
    have h1 := splitNL_length (text.take o)
    have h2 := splitNL_getLastD_length (text.take o)
    have hlen : (text.take o).length = o := by
      simp only [List.length_take]
      omega
    simp only [updateCursorPosition, specLine, lineStartOffset, Prod.mk.injEq]
    constructor
    · omega
    · rw [h2, hlen]
  · intro text
    rfl

/-- C4 witness: the conversion applied at text "ab\ncd" and offset 3. -/
theorem C4_offset_to_line_column_witness :
    3 ≤ ("ab\ncd".data).length ∧
    updateCursorPosition "ab\ncd".data 3 =
      (specLine "ab\ncd".data 3,
        3 - lineStartOffset "ab\ncd".data 3 + 1) :=
  ⟨by decide, C4_offset_to_line_column.1 "ab\ncd".data 3 (by decide)⟩

theorem aux_cons_small {l : Text} {ls : List Text} {line col : Nat}
    (h1 : line ≤ 1 ∨ ls = []) :
    lineColumnToOffsetAux (l :: ls) line col = min (col - 1) l.length := by
  simp only [lineColumnToOffsetAux]
  rw [if_pos h1]

theorem aux_cons_big {l : Text} {ls : List Text} {line col : Nat}
    (h1 : ¬ line ≤ 1) (h2 : ls ≠ []) :
    lineColumnToOffsetAux (l :: ls) line col =
      l.length + 1 + lineColumnToOffsetAux ls (line - 1) col := by
  simp only [lineColumnToOffsetAux]
  rw [if_neg (not_or.mpr ⟨h1, h2⟩)]

theorem aux_roundtrip (text : Text) : ∀ o : Nat, o ≤ text.length →
    lineColumnToOffsetAux (splitNL text)
      (splitNL (text.take o)).length
      (((splitNL (text.take o)).getLastD []).length + 1) = o := by
  induction text with
  | nil =>
    intro o ho
    have h0 : o = 0 := Nat.le_zero.mp (by simpa using ho)
    subst h0
    decide
  | cons c rest ih =>
    intro o ho
    cases o with
    | zero =>
      simp only [List.take_zero]
      cases h : splitNL (c :: rest) with
      | nil => exact absurd h (splitNL_ne_nil _)
      | cons a b =>
        simp [splitNL, aux_cons_small (Or.inl (le_refl 1))]
    | succ o' =>
      have ho' : o' ≤ rest.length := by simpa using ho
      rw [List.take_succ_cons]
      obtain ⟨a, b, h⟩ : ∃ a b, splitNL (rest.take o') = a :: b := by
        cases h : splitNL (rest.take o') with
        | nil => exact absurd h (splitNL_ne_nil _)
        | cons a b => exact ⟨a, b, rfl⟩
      obtain ⟨a2, b2, h2⟩ : ∃ a2 b2, splitNL rest = a2 :: b2 := by
        cases h2 : splitNL rest with
        | nil => exact absurd h2 (splitNL_ne_nil _)
        | cons a2 b2 => exact ⟨a2, b2, rfl⟩
      have ihh := ih o' ho'
      rw [h, h2] at ihh
      by_cases hc : c = '\n'
      · subst hc
        have hsp1 : splitNL ('\n' :: rest.take o') = [] :: a :: b := by
          simp [splitNL, h]
        have hsp2 : splitNL ('\n' :: rest) = [] :: a2 :: b2 := by
          simp [splitNL, h2]
        rw [hsp1, hsp2]
        have hline : ¬ (([] :: a :: b : List Text).length ≤ 1) := by
          simp
        rw [aux_cons_big hline (by simp)]
        simp only [List.length_cons, List.getLastD_cons, List.length_nil,
          Nat.add_sub_cancel] at ihh ⊢
        omega
      · have hsp1 : splitNL (c :: rest.take o') = (c :: a) :: b := by
          simp [splitNL, hc, h]
        have hsp2 : splitNL (c :: rest) = (c :: a2) :: b2 := by
          simp [splitNL, hc, h2]
        rw [hsp1, hsp2]
        by_cases hb : b = []
        · subst hb
          have hnm : '\n' ∉ rest.take o' := by
            intro hmem
            exact splitNL_tail_ne_nil h hmem rfl
          have ha : a = rest.take o' := by
            have hx := splitNL_of_not_mem hnm
            rw [h] at hx
            exact ((List.cons.injEq _ _ _ _).mp hx).1
          have halen : a.length = o' := by
            rw [ha]
            simp only [List.length_take]
            omega
          have hhead : o' ≤ a2.length := by
            have hx := splitNL_headD_length ho' hnm
            rw [h2] at hx
            simpa using hx
          rw [aux_cons_small (Or.inl (by simp))]
          simp only [List.getLastD_cons, List.getLastD_nil, List.length_cons,
            Nat.add_sub_cancel]
          omega
        · have hmem : '\n' ∈ rest.take o' := mem_of_splitNL_cons_ne h hb
          have hmem2 : '\n' ∈ rest := List.take_subset o' rest hmem
          have hb2 : b2 ≠ [] := splitNL_tail_ne_nil h2 hmem2
          have hbl : 0 < b.length := List.length_pos.mpr hb
          have hline : ¬ (((c :: a) :: b : List Text).length ≤ 1) := by
            simp only [List.length_cons]
            omega
          have hline2 : ¬ ((a :: b : List Text).length ≤ 1) := by
            simp only [List.length_cons]
            omega
          rw [aux_cons_big hline hb2]
          rw [aux_cons_big hline2 hb2] at ihh
          have hcol : ((c :: a) :: b).getLastD [] = (a :: b).getLastD [] := by
            rw [List.getLastD_cons, List.getLastD_cons]
            exact getLastD_irrel hb _ _
          rw [hcol]
          simp only [List.length_cons, Nat.add_sub_cancel] at ihh ⊢
          omega

/-- C5: converting any in-range offset to (line, column) with the code's
`updateCursorPosition` and back with the spec's `lineColumnToOffset` yields
the offset again. -/
theorem C5_round_trip (text : Text) (o : Nat) (ho : o ≤ text.length) :
    lineColumnToOffset text (updateCursorPosition text o).1
      (updateCursorPosition text o).2 = o := by
  have h := aux_roundtrip text o ho
  simpa [lineColumnToOffset, updateCursorPosition] using h

/-- C5 witness: the round trip at text "ab\ncd" and offset 3. -/
theorem C5_round_trip_witness :
    3 ≤ ("ab\ncd".data).length ∧
    lineColumnToOffset "ab\ncd".data (updateCursorPosition "ab\ncd".data 3).1
      (updateCursorPosition "ab\ncd".data 3).2 = 3 :=
  ⟨by decide, C5_round_trip "ab\ncd".data 3 (by decide)⟩

theorem highlightCode_frame (hl : Highlighter) (s : EditorState) :
    ((highlightCode hl s).1).code = s.code ∧
    ((highlightCode hl s).1).selectionStart = s.selectionStart ∧
    ((highlightCode hl s).1).selectionEnd = s.selectionEnd := by
  unfold highlightCode
  cases hl s.code (localLanguage_get s.language) <;> simp

theorem updateContent_frame (hl : Highlighter) (s : EditorState) :
    ((updateContent hl s).1).code = s.code ∧
    ((updateContent hl s).1).selectionStart = s.selectionStart ∧
    ((updateContent hl s).1).selectionEnd = s.selectionEnd := by
  have h := highlightCode_frame hl s
  unfold updateContent
  split
  · next s1 e heq =>
      rw [heq] at h
      exact h
  · next s1 heq =>
      rw [heq] at h
      simpa [updateCursorPositionRun] using h

/-- C1 counterexample: with a highlighter that throws (as `hljs.highlight`
does on an unregistered language), `highlightCode` returns the exception to
its caller instead of swallowing it and rendering a fallback span; nothing
is written to the display. -/
theorem C1_counterexample :
    highlightCode (hlFail "Unknown language: cobol") sampleState =
      (sampleState, some "Unknown language: cobol") := by
  decide

/-- C1 amended: `highlightCode` has no try/catch, so when the external
highlighting function throws, the exception propagates to the caller; the
Document text and the previously rendered display are nevertheless left
untouched (no fallback unstyled span is produced). -/
theorem C1_highlight_error_propagates (hl : Highlighter) (s : EditorState)
    (e : String) (h : hl s.code (localLanguage_get s.language) = .error e) :
    highlightCode hl s = (s, some e) := by
  simp [highlightCode, h]

/-- C1 witness: the amended statement applied to a concrete throwing
highlighter and state. -/
theorem C1_highlight_error_propagates_witness :
    highlightCode (hlFail "boom") sampleState = (sampleState, some "boom") :=
  C1_highlight_error_propagates (hlFail "boom") sampleState "boom" rfl

/-- C3 counterexample: requesting the unsupported tag "cobol" does not
default the active language tag to "javascript": `localLanguage` returns
"cobol" itself, which is not in the supported list. -/
theorem C3_counterexample :
    localLanguage_get (some "cobol") = "cobol" ∧
    "cobol" ∉ languages ∧
    localLanguage_get (some "cobol") ≠ "javascript" := by
  decide

/-- C3 amended: the active language tag defaults to "javascript" exactly
when the requested tag is absent or the empty string; every other requested
tag - supported or not - is used as is. -/
theorem C3_localLanguage_default (t : Option String) :
    localLanguage_get t =
      if t.getD "" = "" then "javascript" else t.getD "" := by
  cases t with
  | none => rfl
  | some s => by_cases h : s = "" <;> simp [localLanguage_get, h]

/-- C6: a range replacement of `[start, stop)` preserves every character
strictly before `start` and every character at or after `stop` (the latter
shifted by the replacement length), including when the range crosses line
boundaries. -/
theorem C6_applyEdit_frame (text : Text) (start stop : Nat) (repl : Text)
    (h1 : start ≤ stop) (h2 : stop ≤ text.length) :
    (applyEdit text start stop repl).take start = text.take start ∧
    (applyEdit text start stop repl).drop (start + repl.length) =
      text.drop stop := by
  have hs : start ≤ text.length := le_trans h1 h2
  have hlen : (text.take start).length = start := by
    simp only [List.length_take]
    omega
  constructor
  · rw [applyEdit, List.append_assoc]
    exact List.take_left' hlen
  · rw [applyEdit]
    exact List.drop_left' (by simp [hlen])

/-- C6 witness: the frame property at a concrete replacement crossing a
line boundary. -/
theorem C6_applyEdit_frame_witness :
    1 ≤ 4 ∧ 4 ≤ ("ab\ncd".data).length ∧
    ((applyEdit "ab\ncd".data 1 4 "XY".data).take 1 = ("ab\ncd".data).take 1 ∧
      (applyEdit "ab\ncd".data 1 4 "XY".data).drop (1 + ("XY".data).length) =
        ("ab\ncd".data).drop 4) :=
  ⟨by decide, by decide,
    C6_applyEdit_frame "ab\ncd".data 1 4 "XY".data (by decide) (by decide)⟩

/-- C7: inserting zero-length text at any offset leaves the Document
content unchanged. -/
theorem C7_zero_length_insert_noop (text : Text) (o : Nat) :
    applyEdit text o o [] = text := by
  simp [applyEdit]

/-- C8: any sequence of word-wrap or dark-mode toggles leaves the Document
text and the caret (both selection endpoints) unchanged. -/
theorem C8_toggles_frame (ops : List DisplayToggle) (s : EditorState) :
    (applyToggles ops s).code = s.code ∧
    (applyToggles ops s).selectionStart = s.selectionStart ∧
    (applyToggles ops s).selectionEnd = s.selectionEnd := by
  induction ops generalizing s with
  | nil => exact ⟨rfl, rfl, rfl⟩
  | cons op ops ih =>
    cases op with
    | dark =>
      simpa [applyToggles, toggleDarkMode, setDarkMode] using ih (toggleDarkMode s)
    | wrap =>
      simpa [applyToggles, toggleWordWrap, setWordWrap] using ih (toggleWordWrap s)

/-- C9: a pure re-highlight cycle - render, measure the caret, re-render
with the same text - changes neither the Document text nor the caret
offset: `highlightCode` writes only the display `innerHTML` and
`updateCursorPosition` writes only the two display coordinates. -/
theorem C9_rerender_preserves_caret (hl : Highlighter) (s : EditorState) :
    ((highlightCode hl (updateCursorPositionRun (highlightCode hl s).1)).1).selectionStart
        = s.selectionStart ∧
    ((highlightCode hl (updateCursorPositionRun (highlightCode hl s).1)).1).code
        = s.code := by
  obtain ⟨h1, h2, h3⟩ := highlightCode_frame hl s
  obtain ⟨g1, g2, g3⟩ :=
    highlightCode_frame hl (updateCursorPositionRun (highlightCode hl s).1)
  constructor
  · rw [g2]
    simpa [updateCursorPositionRun] using h2
  · rw [g1]
    simpa [updateCursorPositionRun] using h1

/-- C10: pressing Tab with any prior selection `[start, stop)` replaces the
selected range by exactly two spaces and collapses the caret to
`start + 2`, whatever the length of the replaced selection. -/
theorem C10_tab_two_spaces (hl : Highlighter) (s : EditorState) :
    ((handleKeyDown hl s).1).code =
      s.code.take s.selectionStart ++ "  ".data ++ s.code.drop s.selectionEnd ∧
    ((handleKeyDown hl s).1).selectionStart = s.selectionStart + 2 ∧
    ((handleKeyDown hl s).1).selectionEnd = s.selectionStart + 2 := by
  have h := updateContent_frame hl
    { s with
      code := s.code.take s.selectionStart ++ "  ".data ++ s.code.drop s.selectionEnd
      selectionStart := s.selectionStart + 2
      selectionEnd := s.selectionStart + 2 }
  simpa [handleKeyDown] using h

/-! Helper lemmas for the highlight projection (C2). -/

theorem br_data : "<br>".data = ['<', 'b', 'r', '>'] := rfl

theorem amp_data : "&amp;".data = ['&', 'a', 'm', 'p', ';'] := rfl

theorem lt_data : "&lt;".data = ['&', 'l', 't', ';'] := rfl

theorem gt_data : "&gt;".data = ['&', 'g', 't', ';'] := rfl

theorem quot_data : "&quot;".data = ['&', 'q', 'u', 'o', 't', ';'] := rfl

theorem apos_data : "&#x27;".data = ['&', '#', 'x', '2', '7', ';'] := rfl

theorem open_data : "<span class=".data = '<' :: "span class=".data := rfl

theorem close_data : "</span>".data = '<' :: "/span".data ++ ['>'] := rfl

theorem quoteChar_ne_amp : quoteChar ≠ '&' := by decide

theorem quoteChar_ne_lt : quoteChar ≠ '<' := by decide

theorem quoteChar_ne_gt : quoteChar ≠ '>' := by decide

theorem quoteChar_ne_nl : quoteChar ≠ '\n' := by decide

theorem aposChar_ne_amp : aposChar ≠ '&' := by decide

theorem aposChar_ne_lt : aposChar ≠ '<' := by decide

theorem aposChar_ne_gt : aposChar ≠ '>' := by decide

theorem aposChar_ne_quote : aposChar ≠ quoteChar := by decide

theorem aposChar_ne_nl : aposChar ≠ '\n' := by decide

theorem replaceBr_append (a b : Text) :
    replaceBr (a ++ b) = replaceBr a ++ replaceBr b := by
  induction a with
  | nil => simp [replaceBr]
  | cons c rest ih => simp [replaceBr, ih, List.append_assoc]

theorem replaceBr_of_not_mem {u : Text} (h : '\n' ∉ u) : replaceBr u = u := by
  induction u with
  | nil => simp [replaceBr]
  | cons c rest ih =>
    have hc : c ≠ '\n' := fun hc => h (hc ▸ List.mem_cons_self _ _)
    have hr : '\n' ∉ rest := fun hr => h (List.mem_cons_of_mem _ hr)
    simp [replaceBr, hc, ih hr]

theorem escapeHtml_append (a b : Text) :
    escapeHtml (a ++ b) = escapeHtml a ++ escapeHtml b := by
  induction a with
  | nil => simp [escapeHtml]
  | cons c rest ih => simp [escapeHtml, ih, List.append_assoc]

theorem skipTag_append (u v : Text) (hu : '>' ∉ u) :
    skipTag (u ++ '>' :: v) = stripTags v := by
  induction u with
  | nil => simp [skipTag]
  | cons c rest ih =>
    have hc : c ≠ '>' := fun hc => hu (hc ▸ List.mem_cons_self _ _)
    have hr : '>' ∉ rest := fun hr => hu (List.mem_cons_of_mem _ hr)
    simp [skipTag, hc, ih hr]

theorem stripTags_replaceBr_escape (s : Text) : ∀ t : Text,
    stripTags (replaceBr (escapeHtml s) ++ t) =
      escapeHtml (s.filter (· ≠ '\n')) ++ stripTags t := by
  induction s with
  | nil => intro t; simp [escapeHtml, replaceBr]
  | cons c s ih =>
    intro t
    by_cases h6 : c = '\n'
    · subst h6
      simp [escapeHtml, replaceBr, stripTags, skipTag, br_data,
        List.append_assoc, ih]
    · by_cases h1 : c = '&'
      · subst h1
        simp [escapeHtml, replaceBr, stripTags, amp_data, List.append_assoc, ih]
      · by_cases h2 : c = '<'
        · subst h2
          simp [escapeHtml, replaceBr, stripTags, lt_data, List.append_assoc, ih]
        · by_cases h3 : c = '>'
          · subst h3
            simp [escapeHtml, replaceBr, stripTags, gt_data,
              List.append_assoc, ih]
          · by_cases h4 : c = quoteChar
            · subst h4
              simp [escapeHtml, replaceBr, stripTags, quot_data, quoteChar_ne_amp,
                quoteChar_ne_lt, quoteChar_ne_gt, quoteChar_ne_nl,
                List.append_assoc, ih]
            · by_cases h5 : c = aposChar
              · subst h5
                simp [escapeHtml, replaceBr, stripTags, apos_data, aposChar_ne_amp,
                  aposChar_ne_lt, aposChar_ne_gt, aposChar_ne_quote, aposChar_ne_nl,
                  List.append_assoc, ih]
              · simp [escapeHtml, replaceBr, stripTags, h1, h2, h3, h4, h5, h6,
                  List.append_assoc, ih]

theorem stripTags_replaceBr_tag (u v : Text) (hgt : '>' ∉ u) (hnl : '\n' ∉ u) :
    stripTags (replaceBr (('<' :: u) ++ '>' :: v)) = stripTags (replaceBr v) := by
  have h1 : replaceBr (('<' :: u) ++ '>' :: v) = '<' :: (u ++ '>' :: replaceBr v) := by
    rw [List.cons_append]
    simp [replaceBr, replaceBr_append, replaceBr_of_not_mem hnl]
  rw [h1]
  simp only [stripTags, if_true]
  exact skipTag_append u (replaceBr v) hgt

theorem stripTags_replaceBr_span (s cl t : Text)
    (hgt : '>' ∉ cl) (hnl : '\n' ∉ cl) :
    stripTags (replaceBr (serializeSpan ⟨s, some cl⟩ ++ t)) =
      escapeHtml (s.filter (· ≠ '\n')) ++ stripTags (replaceBr t) := by
  have hu1gt : '>' ∉ "span class=".data ++ [quoteChar] ++ cl ++ [quoteChar] := by
    intro hmem
    rcases List.mem_append.mp hmem with h' | h'
    · rcases List.mem_append.mp h' with h'' | h''
      · rcases List.mem_append.mp h'' with h3 | h3
        · exact absurd h3 (by decide)
        · exact absurd h3 (by decide)
      · exact hgt h''
    · exact absurd h' (by decide)
  have hu1nl : '\n' ∉ "span class=".data ++ [quoteChar] ++ cl ++ [quoteChar] := by
    intro hmem
    rcases List.mem_append.mp hmem with h' | h'
    · rcases List.mem_append.mp h' with h'' | h''
      · rcases List.mem_append.mp h'' with h3 | h3
        · exact absurd h3 (by decide)
        · exact absurd h3 (by decide)
      · exact hnl h''
    · exact absurd h' (by decide)
  have hshape : serializeSpan ⟨s, some cl⟩ ++ t =
      ('<' :: ("span class=".data ++ [quoteChar] ++ cl ++ [quoteChar])) ++ '>' ::
        (escapeHtml s ++ (('<' :: "/span".data) ++ '>' :: t)) := by
    simp [serializeSpan, open_data, close_data, List.append_assoc]
  rw [hshape, stripTags_replaceBr_tag _ _ hu1gt hu1nl, replaceBr_append,
    stripTags_replaceBr_escape,
    stripTags_replaceBr_tag _ _ (by decide) (by decide)]

theorem stripTags_replaceBr_serializeSpans (spans : List Span) :
    ∀ t : Text,
    (∀ sp ∈ spans, ∀ cl, sp.cls = some cl → '>' ∉ cl ∧ '\n' ∉ cl) →
    stripTags (replaceBr (serializeSpans spans ++ t)) =
      escapeHtml (((spans.map Span.text).flatten).filter (· ≠ '\n')) ++
        stripTags (replaceBr t) := by
  induction spans with
  | nil =>
    intro t _
    simp [serializeSpans, escapeHtml]
  | cons sp rest ih =>
    intro t hcls
    obtain ⟨s0, cls0⟩ := sp
    have hser : serializeSpans (⟨s0, cls0⟩ :: rest) =
        serializeSpan ⟨s0, cls0⟩ ++ serializeSpans rest := by
      simp [serializeSpans]
    rw [hser, List.append_assoc]
    have ihr := ih (serializeSpans rest ++ t)
    cases cls0 with
    | none =>
      have hsp : serializeSpan (⟨s0, none⟩ : Span) = escapeHtml s0 := by
        simp [serializeSpan]
      rw [hsp, replaceBr_append, stripTags_replaceBr_escape,
        ih t (fun sp' h' => hcls sp' (List.mem_cons_of_mem _ h'))]
      simp [escapeHtml_append, List.filter_append, List.append_assoc]
    | some cl =>
      obtain ⟨hgt, hnl⟩ := hcls ⟨s0, some cl⟩ (List.mem_cons_self _ _) cl rfl
      rw [stripTags_replaceBr_span s0 cl _ hgt hnl,
        ih t (fun sp' h' => hcls sp' (List.mem_cons_of_mem _ h'))]
      simp [escapeHtml_append, List.filter_append, List.append_assoc]

theorem decode_nil : decodeEntities [] = [] := rfl

theorem decode_amp (x : Text) :
    decodeEntities ('&' :: 'a' :: 'm' :: 'p' :: ';' :: x) =
      '&' :: decodeEntities x := rfl

theorem decode_lt (x : Text) :
    decodeEntities ('&' :: 'l' :: 't' :: ';' :: x) =
      '<' :: decodeEntities x := rfl

theorem decode_gt (x : Text) :
    decodeEntities ('&' :: 'g' :: 't' :: ';' :: x) =
      '>' :: decodeEntities x := rfl

theorem decode_quot (x : Text) :
    decodeEntities ('&' :: 'q' :: 'u' :: 'o' :: 't' :: ';' :: x) =
      quoteChar :: decodeEntities x := rfl

theorem decode_apos (x : Text) :
    decodeEntities ('&' :: '#' :: 'x' :: '2' :: '7' :: ';' :: x) =
      aposChar :: decodeEntities x := rfl

set_option maxHeartbeats 1000000 in
theorem decode_plain {c : Char} (h : c ≠ '&') (x : Text) :
    decodeEntities (c :: x) = c :: decodeEntities x := by
  conv_lhs => rw [decodeEntities.eq_def]
  simp only [if_neg h]

theorem decodeEntities_escape (s : Text) : ∀ t : Text,
    decodeEntities (escapeHtml s ++ t) = s ++ decodeEntities t := by
  induction s with
  | nil => intro t; simp [escapeHtml]
  | cons c s ih =>
    intro t
    by_cases h1 : c = '&'
    · subst h1
      simp [escapeHtml, amp_data, decode_amp, List.append_assoc, ih]
    · by_cases h2 : c = '<'
      · subst h2
        simp [escapeHtml, lt_data, decode_lt, List.append_assoc, ih]
      · by_cases h3 : c = '>'
        · subst h3
          simp [escapeHtml, gt_data, decode_gt, List.append_assoc, ih]
        · by_cases h4 : c = quoteChar
          · subst h4
            simp [escapeHtml, quot_data, decode_quot, quoteChar_ne_amp,
              quoteChar_ne_lt, quoteChar_ne_gt, List.append_assoc, ih]
          · by_cases h5 : c = aposChar
            · subst h5
              simp [escapeHtml, apos_data, decode_apos, aposChar_ne_amp,
                aposChar_ne_lt, aposChar_ne_gt, aposChar_ne_quote,
                List.append_assoc, ih]
            · simp [escapeHtml, h1, h2, h3, h4, h5, decode_plain h1,
                List.append_assoc, ih]

theorem decodeEntities_escapeHtml (u : Text) :
    decodeEntities (escapeHtml u) = u := by
  have h := decodeEntities_escape u []
  simpa [decode_nil] using h

theorem literalText_serializeSpans (spans : List Span)
    (hcls : ∀ sp ∈ spans, ∀ cl, sp.cls = some cl → '>' ∉ cl ∧ '\n' ∉ cl) :
    literalText (replaceBr (serializeSpans spans)) =
      ((spans.map Span.text).flatten).filter (· ≠ '\n') := by
  have h := stripTags_replaceBr_serializeSpans spans [] hcls
  simp only [List.append_nil, replaceBr, stripTags] at h
  rw [literalText, h, decodeEntities_escapeHtml]

/-- C2 counterexample: even when the external highlighter returns the text
as one single unstyled span, the projection of the two-line text "a\nb"
does not reconstruct it - each line break is substituted by a `<br>`
markup-only construct, so the literal character content of the rendered
display drops the line break. -/
theorem C2_counterexample :
    (([⟨"a\nb".data, none⟩] : List Span).map Span.text).flatten = "a\nb".data ∧
    literalText (((highlightCode
        (fun _ _ => Except.ok (serializeSpans [⟨"a\nb".data, none⟩]))
        sampleState).1).innerHTML) ≠ "a\nb".data := by
  decide

/-- C2 amended: for a highlighter whose spans concatenate to the text `T`
(with well-formed class names), the literal character content of the
rendered display equals `T` with every line-break character removed -
line 104 substitutes each line break by a `<br>` markup element - and
equals `T` exactly when `T` contains no line break. -/
theorem C2_projection_literal_text (s : EditorState) (spans : List Span)
    (T : Text)
    (hT : (spans.map Span.text).flatten = T)
    (hcls : ∀ sp ∈ spans, ∀ cl, sp.cls = some cl → '>' ∉ cl ∧ '\n' ∉ cl) :
    literalText (((highlightCode
        (fun _ _ => Except.ok (serializeSpans spans)) s).1).innerHTML)
      = T.filter (· ≠ '\n') ∧
    ('\n' ∉ T →
      literalText (((highlightCode
          (fun _ _ => Except.ok (serializeSpans spans)) s).1).innerHTML)
        = T) := by
  have hinner : ((highlightCode
      (fun _ _ => Except.ok (serializeSpans spans)) s).1).innerHTML
      = replaceBr (serializeSpans spans) := rfl
  subst hT
  refine ⟨?_, ?_⟩
  · rw [hinner, literalText_serializeSpans spans hcls]
  · intro hmem
    rw [hinner, literalText_serializeSpans spans hcls]
    apply List.filter_eq_self.mpr
    intro a ha
    have hne : a ≠ '\n' := fun h => hmem (h ▸ ha)
    simp [hne]

/-- C2 witness: the amended statement applied to a concrete two-span
highlighter output. -/
theorem C2_projection_literal_text_witness :
    literalText (((highlightCode
        (fun _ _ => Except.ok (serializeSpans
          [⟨"if".data, some "hljs-keyword".data⟩, ⟨" a<b".data, none⟩]))
        sampleState).1).innerHTML)
      = ("if a<b".data).filter (· ≠ '\n') :=
  (C2_projection_literal_text sampleState
    [⟨"if".data, some "hljs-keyword".data⟩, ⟨" a<b".data, none⟩]
    "if a<b".data (by decide) (by decide)).1

end Snipzy
